import Mathlib

/-!
Verification development for the oxidex context library.

The development embeds, from the source:
- the dynamic tagged value `Value` (mirroring `serde_value::Value`),
- the `Context` container over an ordered string-keyed map
  (Rust's `BTreeMap<String, Value>`, embedded as a key-sorted
  association list with `BTreeMap`'s insert semantics),
- the per-format conversion pipelines `from_F` / `to_F` for JSON,
  TOML, YAML and XML.

The external format engines (grammar parsers and pretty-printers) are out of
scope of the source under verification; they are passed to the conversion
functions as parameters, constrained only where a theorem needs the engine
contract stated by the specification.
-/

/-- Three-way comparison of strings, mirroring the lexicographic ordering Rust
uses for `String` keys in a `BTreeMap` (UTF-8 byte order coincides with code
point order, which is what the embedded ordering compares). The condition is
phrased on the character lists so that it evaluates on literals. -/
def cmpString (a b : String) : Ordering :=
  if a.data < b.data then .lt else if a = b then .eq else .gt

theorem string_data_lt_iff (a b : String) : a.data < b.data ↔ a < b :=
  Iff.symm String.lt_iff_toList_lt

theorem cmpString_eq_iff (a b : String) : cmpString a b = .eq ↔ a = b := by
  unfold cmpString
  split_ifs with h1 h2
  · exact iff_of_false (by simp) (ne_of_lt ((string_data_lt_iff a b).mp h1))
  · exact iff_of_true rfl h2
  · exact iff_of_false (by simp) h2

theorem cmpString_lt_iff (a b : String) : cmpString a b = .lt ↔ a < b := by
  unfold cmpString
  split_ifs with h1 h2
  · exact iff_of_true rfl ((string_data_lt_iff a b).mp h1)
  · subst h2; exact iff_of_false (by simp) (lt_irrefl a)
  · exact iff_of_false (by simp) (fun h => h1 ((string_data_lt_iff a b).mpr h))

theorem cmpString_gt_iff (a b : String) : cmpString a b = .gt ↔ b < a := by
  unfold cmpString
  split_ifs with h1 h2
  · exact iff_of_false (by simp) (lt_asymm ((string_data_lt_iff a b).mp h1))
  · exact iff_of_false (by simp) (h2 ▸ lt_irrefl a)
  · refine iff_of_true rfl ?_
    refine (Ne.lt_or_lt h2).resolve_left ?_
    exact fun h => h1 ((string_data_lt_iff a b).mpr h)

theorem cmpString_refl (a : String) : cmpString a a = .eq :=
  (cmpString_eq_iff a a).mpr rfl

theorem cmpString_gt_iff_lt (a b : String) :
    cmpString a b = .gt ↔ cmpString b a = .lt := by
  rw [cmpString_gt_iff, cmpString_lt_iff]

theorem cmpString_lt_trans {a b c : String} (h1 : cmpString a b = .lt)
    (h2 : cmpString b c = .lt) : cmpString a c = .lt := by
  rw [cmpString_lt_iff] at h1 h2 ⊢
  exact lt_trans h1 h2

section AList

variable {α : Type} {β : Type}

/-- Insertion into an ordered association list, embedding
`BTreeMap::insert`: when the key is already present the stored value is
replaced and the original key is kept, otherwise the pair is placed at its
ordered position. -/
def insertA (cmp : α → α → Ordering) (k : α) (v : β) :
    List (α × β) → List (α × β)
  | [] => [(k, v)]
  | (k', v') :: t =>
    match cmp k k' with
    | .lt => (k, v) :: (k', v') :: t
    | .eq => (k', v) :: t
    | .gt => (k', v') :: insertA cmp k v t

/-- Lookup in an association list, embedding `BTreeMap::get`: the value of
the entry whose key compares equal, if any. -/
def lookupA (cmp : α → α → Ordering) (k : α) : List (α × β) → Option β
  | [] => none
  | (k', v) :: t =>
    match cmp k k' with
    | .eq => some v
    | _ => lookupA cmp k t

/-- Collection of a pair sequence into an ordered map, embedding
`BTreeMap`'s `FromIterator` (repeated insertion starting from empty). -/
def collectA (cmp : α → α → Ordering) (l : List (α × β)) : List (α × β) :=
  l.foldl (fun acc kv => insertA cmp kv.1 kv.2 acc) []

theorem insertA_cons_lt {cmp : α → α → Ordering} {k k' : α} (v v' : β)
    (t : List (α × β)) (hc : cmp k k' = .lt) :
    insertA cmp k v ((k', v') :: t) = (k, v) :: (k', v') :: t := by
  simp only [insertA, hc]

theorem insertA_cons_eq {cmp : α → α → Ordering} {k k' : α} (v v' : β)
    (t : List (α × β)) (hc : cmp k k' = .eq) :
    insertA cmp k v ((k', v') :: t) = (k', v) :: t := by
  simp only [insertA, hc]

theorem insertA_cons_gt {cmp : α → α → Ordering} {k k' : α} (v v' : β)
    (t : List (α × β)) (hc : cmp k k' = .gt) :
    insertA cmp k v ((k', v') :: t) = (k', v') :: insertA cmp k v t := by
  simp only [insertA, hc]

theorem lookupA_cons_eq {cmp : α → α → Ordering} {k k' : α} (v : β)
    (t : List (α × β)) (hc : cmp k k' = .eq) :
    lookupA cmp k ((k', v) :: t) = some v := by
  simp only [lookupA, hc]

theorem lookupA_cons_ne {cmp : α → α → Ordering} {k k' : α} (v : β)
    (t : List (α × β)) (hc : cmp k k' ≠ .eq) :
    lookupA cmp k ((k', v) :: t) = lookupA cmp k t := by
  cases h : cmp k k'
  · simp only [lookupA, h]
  · exact absurd h hc
  · simp only [lookupA, h]

/-- Boolean all-pairs form of an ordering predicate on a list: every element
relates to every later element. -/
def pairwiseB (r : α → α → Bool) : List α → Bool
  | [] => true
  | a :: t => (t.all fun b => r a b) && pairwiseB r t

/-- Key-sortedness of an association list: every key strictly precedes every
later key. This is the ordering invariant of `BTreeMap`. -/
def sortedA (cmp : α → α → Ordering) (l : List (α × β)) : Bool :=
  pairwiseB (fun p q => decide (cmp p.1 q.1 = .lt)) l

theorem sortedA_nil (cmp : α → α → Ordering) :
    sortedA cmp ([] : List (α × β)) = true := rfl

theorem sortedA_cons_iff {cmp : α → α → Ordering} {hd : α × β}
    {t : List (α × β)} :
    sortedA cmp (hd :: t) = true ↔
      (∀ p ∈ t, cmp hd.1 p.1 = .lt) ∧ sortedA cmp t = true := by
  simp only [sortedA, pairwiseB, Bool.and_eq_true, List.all_eq_true,
    decide_eq_true_eq]

theorem pairwiseB_pairwise {r : α → α → Bool} {l : List α}
    (h : pairwiseB r l = true) : l.Pairwise (fun a b => r a b = true) := by
  induction l with
  | nil => exact .nil
  | cons a t ih =>
    unfold pairwiseB at h
    rw [Bool.and_eq_true, List.all_eq_true] at h
    exact .cons (fun b hb => h.1 b hb) (ih h.2)

theorem sortedA_pairwise {cmp : α → α → Ordering} {l : List (α × β)}
    (h : sortedA cmp l = true) :
    l.Pairwise (fun p q => cmp p.1 q.1 = .lt) := by
  have := pairwiseB_pairwise h
  exact this.imp (fun hb => by simpa using hb)

theorem keys_insertA {cmp : α → α → Ordering} {k : α} {v : β}
    {l : List (α × β)} {kv : α × β} (h : kv ∈ insertA cmp k v l) :
    kv.1 = k ∨ kv.1 ∈ l.map Prod.fst := by
  induction l with
  | nil =>
    simp only [insertA, List.mem_singleton] at h
    exact Or.inl (by rw [h])
  | cons hd t ih =>
    obtain ⟨k', v'⟩ := hd
    cases hc : cmp k k'
    case lt =>
      rw [insertA_cons_lt v v' t hc, List.mem_cons, List.mem_cons] at h
      rcases h with h | h | h
      · left; rw [h]
      · right; rw [h]; simp
      · right
        simp only [List.map_cons, List.mem_cons]
        exact Or.inr (List.mem_map_of_mem Prod.fst h)
    case eq =>
      rw [insertA_cons_eq v v' t hc, List.mem_cons] at h
      rcases h with h | h
      · right; rw [h]; simp
      · right
        simp only [List.map_cons, List.mem_cons]
        exact Or.inr (List.mem_map_of_mem Prod.fst h)
    case gt =>
      rw [insertA_cons_gt v v' t hc, List.mem_cons] at h
      rcases h with h | h
      · right; rw [h]; simp
      · rcases ih h with h' | h'
        · exact Or.inl h'
        · right
          simp only [List.map_cons, List.mem_cons]
          exact Or.inr h'

theorem sortedA_insertA (cmp : α → α → Ordering)
    (hlg : ∀ a b : α, cmp a b = .gt ↔ cmp b a = .lt)
    (htr : ∀ a b c : α, cmp a b = .lt → cmp b c = .lt → cmp a c = .lt)
    (k : α) (v : β) {l : List (α × β)} (hs : sortedA cmp l = true) :
    sortedA cmp (insertA cmp k v l) = true := by
  induction l with
  | nil =>
    show sortedA cmp [(k, v)] = true
    rw [sortedA_cons_iff]
    exact ⟨fun p hp => absurd hp (List.not_mem_nil p), rfl⟩
  | cons hd t ih =>
    obtain ⟨k', v'⟩ := hd
    rw [sortedA_cons_iff] at hs
    obtain ⟨h1, h2⟩ := hs
    cases hc : cmp k k'
    case lt =>
      rw [insertA_cons_lt v v' t hc, sortedA_cons_iff]
      refine ⟨?_, ?_⟩
      · intro p hp
        rw [List.mem_cons] at hp
        rcases hp with hp | hp
        · rw [hp]; exact hc
        · exact htr _ _ _ hc (h1 p hp)
      · rw [sortedA_cons_iff]
        exact ⟨h1, h2⟩
    case eq =>
      rw [insertA_cons_eq v v' t hc, sortedA_cons_iff]
      exact ⟨h1, h2⟩
    case gt =>
      rw [insertA_cons_gt v v' t hc, sortedA_cons_iff]
      refine ⟨?_, ih h2⟩
      intro p hp
      rcases keys_insertA hp with h' | h'
      · rw [h']; exact (hlg k k').mp hc
      · simp only [List.mem_map] at h'
        obtain ⟨q, hq, hq'⟩ := h'
        rw [← hq']
        exact h1 q hq

theorem lookupA_insertA_self (cmp : α → α → Ordering) (k : α)
    (hrefl : cmp k k = .eq) (v : β) (l : List (α × β)) :
    lookupA cmp k (insertA cmp k v l) = some v := by
  induction l with
  | nil =>
    show lookupA cmp k [(k, v)] = some v
    exact lookupA_cons_eq v [] hrefl
  | cons hd t ih =>
    obtain ⟨k', v'⟩ := hd
    cases hc : cmp k k'
    case lt =>
      rw [insertA_cons_lt v v' t hc]
      exact lookupA_cons_eq v _ hrefl
    case eq =>
      rw [insertA_cons_eq v v' t hc]
      exact lookupA_cons_eq v t hc
    case gt =>
      rw [insertA_cons_gt v v' t hc, lookupA_cons_ne v' _ (by rw [hc]; simp)]
      exact ih

theorem lookupA_insertA_ne (cmp : α → α → Ordering)
    (heq : ∀ a b : α, cmp a b = .eq ↔ a = b)
    {k k' : α} (v : β) (l : List (α × β)) (hne : k' ≠ k) :
    lookupA cmp k' (insertA cmp k v l) = lookupA cmp k' l := by
  have hne' : cmp k' k ≠ .eq := fun h => hne ((heq k' k).mp h)
  induction l with
  | nil =>
    show lookupA cmp k' [(k, v)] = none
    rw [lookupA_cons_ne v [] hne']
    rfl
  | cons hd t ih =>
    obtain ⟨k₀, v₀⟩ := hd
    cases hc : cmp k k₀
    case lt =>
      rw [insertA_cons_lt v v₀ t hc, lookupA_cons_ne v _ hne']
    case eq =>
      have hk : k = k₀ := (heq k k₀).mp hc
      have hne₀ : cmp k' k₀ ≠ .eq := hk ▸ hne'
      rw [insertA_cons_eq v v₀ t hc, lookupA_cons_ne v t hne₀,
        lookupA_cons_ne v₀ t hne₀]
    case gt =>
      rw [insertA_cons_gt v v₀ t hc]
      by_cases h0 : cmp k' k₀ = .eq
      · rw [lookupA_cons_eq _ _ h0, lookupA_cons_eq _ _ h0]
      · rw [lookupA_cons_ne _ _ h0, lookupA_cons_ne _ _ h0]
        exact ih

theorem insertA_append_of_gt (cmp : α → α → Ordering) (k : α) (v : β)
    {l : List (α × β)} (h : ∀ kv ∈ l, cmp k kv.1 = .gt) :
    insertA cmp k v l = l ++ [(k, v)] := by
  induction l with
  | nil => rfl
  | cons hd t ih =>
    obtain ⟨k₀, v₀⟩ := hd
    have hh : cmp k k₀ = .gt := h (k₀, v₀) (by simp)
    rw [insertA_cons_gt v v₀ t hh, ih (fun kv hkv => h kv (by simp [hkv]))]
    rfl

theorem foldl_insertA_eq_append (cmp : α → α → Ordering)
    {l : List (α × β)} :
    ∀ {acc : List (α × β)},
    (∀ kv ∈ l, ∀ kv' ∈ acc, cmp kv.1 kv'.1 = .gt) →
    l.Pairwise (fun p q => cmp q.1 p.1 = .gt) →
    l.foldl (fun a kv => insertA cmp kv.1 kv.2 a) acc = acc ++ l := by
  induction l with
  | nil => intro acc _ _; simp
  | cons hd t ih =>
    intro acc hacc hp
    obtain ⟨k₀, v₀⟩ := hd
    rw [List.pairwise_cons] at hp
    obtain ⟨hhd, hpt⟩ := hp
    simp only [List.foldl_cons]
    rw [insertA_append_of_gt cmp k₀ v₀
      (fun kv hkv => hacc (k₀, v₀) (by simp) kv hkv)]
    rw [ih ?_ hpt]
    · simp
    · intro kv hkv kv' hkv'
      rw [List.mem_append, List.mem_singleton] at hkv'
      rcases hkv' with h | h
      · exact hacc kv (by simp [hkv]) kv' h
      · rw [h]; exact hhd kv hkv

theorem collectA_of_pairwise (cmp : α → α → Ordering) (l : List (α × β))
    (hl : l.Pairwise fun p q => cmp q.1 p.1 = .gt) :
    collectA cmp l = l := by
  unfold collectA
  rw [foldl_insertA_eq_append cmp (by intro kv _ kv' h; cases h) hl]
  simp

end AList

/-- Dynamic tagged value, mirroring `serde_value::Value`. Machine integers are
carried as `Nat`/`Int` (the library performs no arithmetic on them, only
storage and comparison, so no overflow arises); `F32`/`F64` carry a rational
standing for the finite float payload (float-specific behaviour is outside
every claim). `Map` is `BTreeMap<Value, Value>`, embedded as a key-sorted
association list. -/
inductive Value where
  | Bool (b : Bool)
  | U8 (n : Nat)
  | U16 (n : Nat)
  | U32 (n : Nat)
  | U64 (n : Nat)
  | I8 (n : Int)
  | I16 (n : Int)
  | I32 (n : Int)
  | I64 (n : Int)
  | F32 (q : Rat)
  | F64 (q : Rat)
  | Char (c : Char)
  | String (s : String)
  | Unit
  | Option (o : Option Value)
  | Newtype (v : Value)
  | Seq (xs : List Value)
  | Map (m : List (Value × Value))
  | Bytes (bs : List Nat)

/-- Three-way comparison on naturals. -/
def cmpNat (a b : Nat) : Ordering :=
  if a < b then .lt else if a = b then .eq else .gt

/-- Three-way comparison on integers. -/
def cmpInt (a b : Int) : Ordering :=
  if a < b then .lt else if a = b then .eq else .gt

/-- Three-way comparison on rationals (standing for float payloads). -/
def cmpRat (a b : Rat) : Ordering :=
  if a < b then .lt else if a = b then .eq else .gt

/-- Three-way comparison on characters, by code point. -/
def cmpChar (a b : Char) : Ordering := cmpNat a.toNat b.toNat

/-- Three-way comparison on booleans (`false < true`, as in Rust). -/
def cmpBool : Bool → Bool → Ordering
  | false, false => .eq
  | false, true => .lt
  | true, false => .gt
  | true, true => .eq

/-- Lexicographic comparison of byte sequences. -/
def cmpNatList : List Nat → List Nat → Ordering
  | [], [] => .eq
  | [], _ :: _ => .lt
  | _ :: _, [] => .gt
  | a :: as, b :: bs =>
    match cmpNat a b with
    | .eq => cmpNatList as bs
    | o => o

/-- Variant rank of a `Value`, in the declaration order of
`serde_value::Value`; values of distinct variants compare by this rank. -/
def Value.discNo : Value → Nat
  | .Bool _ => 0
  | .U8 _ => 1
  | .U16 _ => 2
  | .U32 _ => 3
  | .U64 _ => 4
  | .I8 _ => 5
  | .I16 _ => 6
  | .I32 _ => 7
  | .I64 _ => 8
  | .F32 _ => 9
  | .F64 _ => 10
  | .Char _ => 11
  | .String _ => 12
  | .Unit => 13
  | .Option _ => 14
  | .Newtype _ => 15
  | .Seq _ => 16
  | .Map _ => 17
  | .Bytes _ => 18

mutual

/-- Total ordering on `Value`, mirroring the `Ord` implementation of
`serde_value::Value`: same-variant values compare structurally by payload,
values of distinct variants compare by variant rank. -/
def Value.cmp : Value → Value → Ordering
  | .Bool a, .Bool b => cmpBool a b
  | .U8 a, .U8 b => cmpNat a b
  | .U16 a, .U16 b => cmpNat a b
  | .U32 a, .U32 b => cmpNat a b
  | .U64 a, .U64 b => cmpNat a b
  | .I8 a, .I8 b => cmpInt a b
  | .I16 a, .I16 b => cmpInt a b
  | .I32 a, .I32 b => cmpInt a b
  | .I64 a, .I64 b => cmpInt a b
  | .F32 a, .F32 b => cmpRat a b
  | .F64 a, .F64 b => cmpRat a b
  | .Char a, .Char b => cmpChar a b
  | .String a, .String b => cmpString a b
  | .Unit, .Unit => .eq
  | .Option none, .Option none => .eq
  | .Option none, .Option (some _) => .lt
  | .Option (some _), .Option none => .gt
  | .Option (some a), .Option (some b) => Value.cmp a b
  | .Newtype a, .Newtype b => Value.cmp a b
  | .Seq a, .Seq b => Value.cmpList a b
  | .Map a, .Map b => Value.cmpPairs a b
  | .Bytes a, .Bytes b => cmpNatList a b
  | a, b => cmpNat a.discNo b.discNo

/-- Lexicographic comparison of value sequences (Rust `Vec<Value>`). -/
def Value.cmpList : List Value → List Value → Ordering
  | [], [] => .eq
  | [], _ :: _ => .lt
  | _ :: _, [] => .gt
  | a :: as, b :: bs =>
    match Value.cmp a b with
    | .eq => Value.cmpList as bs
    | o => o

/-- Lexicographic comparison of entry sequences (a Rust
`BTreeMap<Value, Value>` compares as its sorted entry sequence). -/
def Value.cmpPairs : List (Value × Value) → List (Value × Value) → Ordering
  | [], [] => .eq
  | [], _ :: _ => .lt
  | _ :: _, [] => .gt
  | (k1, v1) :: as, (k2, v2) :: bs =>
    match Value.cmp k1 k2 with
    | .eq =>
      match Value.cmp v1 v2 with
      | .eq => Value.cmpPairs as bs
      | o => o
    | o => o

end

/-- Error taxonomy of the library (`oxidex::Error`), every format feature
enabled. Each variant carries the rendered message of the foreign error. -/
inductive Error where
  | Generic (msg : String)
  | Json (msg : String)
  | Toml (msg : String)
  | Xml (msg : String)
  | Yaml (msg : String)

/-- Context entity: a `BTreeMap<String, serde_value::Value>` storing the
named values, embedded as its ordered entry list. -/
structure Context where
  inner : List (String × Value)

/-- Creation of an empty context (`Context::new`, equal to the default). -/
def Context.new : Context := ⟨[]⟩

/-- Upsert of a key-value pair (`Context::insert`). -/
def Context.insert (c : Context) (k : String) (v : Value) : Context :=
  ⟨insertA cmpString k v c.inner⟩

/-- Lookup of a key (`Context::get`). -/
def Context.get (c : Context) (k : String) : Option Value :=
  lookupA cmpString k c.inner

/-- Bulk upsert from another ordered mapping (`Context::extend`, which is
`BTreeMap::extend`: repeated insertion in the order of `data`). -/
def Context.extend (c : Context) (data : List (String × Value)) : Context :=
  ⟨data.foldl (fun acc kv => insertA cmpString kv.1 kv.2 acc) c.inner⟩

/-- Collection of converted entries into a context, embedding the
`.collect::<BTreeMap<_, _>>()` step of every `from_F` parse path. -/
def Context.ofPairs (l : List (String × Value)) : Context :=
  ⟨collectA cmpString l⟩

/-- Key sequence of a context in iteration order. -/
def Context.keys (c : Context) : List String := c.inner.map Prod.fst

theorem extend_inner (c : Context) (data : List (String × Value)) :
    (c.extend data).inner =
      data.foldl (fun acc kv => insertA cmpString kv.1 kv.2 acc) c.inner := rfl

theorem extend_cons (c : Context) (k : String) (v : Value)
    (t : List (String × Value)) :
    c.extend ((k, v) :: t) = (c.insert k v).extend t := rfl

theorem extend_nil (c : Context) : c.extend [] = c := rfl

theorem sortedA_foldl_insertA {α β : Type} (cmp : α → α → Ordering)
    (hlg : ∀ a b : α, cmp a b = .gt ↔ cmp b a = .lt)
    (htr : ∀ a b c : α, cmp a b = .lt → cmp b c = .lt → cmp a c = .lt)
    (data : List (α × β)) :
    ∀ acc : List (α × β), sortedA cmp acc = true →
      sortedA cmp (data.foldl (fun a kv => insertA cmp kv.1 kv.2 a) acc)
        = true := by
  induction data with
  | nil => intro acc h; exact h
  | cons hd t ih =>
    intro acc h
    exact ih _ (sortedA_insertA cmp hlg htr hd.1 hd.2 h)

theorem lookupA_some_mem {α β : Type} {cmp : α → α → Ordering} {k : α}
    {l : List (α × β)} {v : β} (h : lookupA cmp k l = some v) :
    ∃ p ∈ l, cmp k p.1 = .eq := by
  induction l with
  | nil => cases h
  | cons hd t ih =>
    obtain ⟨k', v'⟩ := hd
    by_cases hc : cmp k k' = .eq
    · exact ⟨(k', v'), by simp, hc⟩
    · rw [lookupA_cons_ne v' t hc] at h
      obtain ⟨p, hp, hp'⟩ := ih h
      exact ⟨p, by simp [hp], hp'⟩

theorem filter_key_nil {β : Type} (k : String) (t : List (String × β))
    (h : ∀ p ∈ t, p.1 ≠ k) : t.filter (fun kv => kv.1 == k) = [] := by
  induction t with
  | nil => rfl
  | cons hd tl ih =>
    have hhd : (hd.1 == k) = false :=
      beq_eq_false_iff_ne.mpr (h hd (by simp))
    rw [List.filter_cons_of_neg (by rw [hhd]; simp)]
    exact ih (fun p hp => h p (by simp [hp]))

theorem filter_beq_key_of_sorted {β : Type} (k : String)
    (l : List (String × β)) (hs : sortedA cmpString l = true) :
    l.filter (fun kv => kv.1 == k) =
      match lookupA cmpString k l with
      | some v => [(k, v)]
      | none => [] := by
  induction l with
  | nil => rfl
  | cons hd t ih =>
    obtain ⟨k₀, v₀⟩ := hd
    rw [sortedA_cons_iff] at hs
    obtain ⟨h1, h2⟩ := hs
    by_cases hk : k₀ = k
    · subst hk
      rw [List.filter_cons_of_pos (by simp)]
      rw [lookupA_cons_eq v₀ t (cmpString_refl k₀)]
      rw [filter_key_nil k₀ t
        (fun p hp => ne_of_gt ((cmpString_lt_iff _ _).mp (h1 p hp)))]
    · have hne : cmpString k k₀ ≠ .eq := fun h =>
        hk ((cmpString_eq_iff k k₀).mp h).symm
      rw [List.filter_cons_of_neg (by simp [hk])]
      rw [lookupA_cons_ne v₀ t hne]
      exact ih h2

/-- Population step of a Context: one `insert` call or one `extend` call.
A list of these steps stands for an arbitrary population order. -/
inductive Op where
  | insertOp (k : String) (v : Value)
  | extendOp (data : List (String × Value))

/-- Application of a sequence of population steps to a context. -/
def applyOps (c : Context) : List Op → Context
  | [] => c
  | Op.insertOp k v :: t => applyOps (c.insert k v) t
  | Op.extendOp d :: t => applyOps (c.extend d) t

theorem sortedA_applyOps (ops : List Op) :
    ∀ c : Context, sortedA cmpString c.inner = true →
      sortedA cmpString (applyOps c ops).inner = true := by
  induction ops with
  | nil => intro c h; exact h
  | cons op t ih =>
    intro c h
    cases op with
    | insertOp k v =>
      exact ih _ (sortedA_insertA cmpString cmpString_gt_iff_lt
        (fun _ _ _ => cmpString_lt_trans) k v h)
    | extendOp d =>
      exact ih _ (sortedA_foldl_insertA cmpString cmpString_gt_iff_lt
        (fun _ _ _ => cmpString_lt_trans) d c.inner h)

/-- C2: for every Context, however it was populated by insert/extend steps,
iteration yields keys in ascending lexicographic order; in particular
inserting key "b" then key "a" yields the key sequence ["a", "b"]. -/
theorem c2_iteration_sorted :
    (∀ ops : List Op,
      sortedA cmpString (applyOps Context.new ops).inner = true) ∧
    Context.keys
      ((Context.new.insert "b" (Value.String "y")).insert "a"
        (Value.String "x")) = ["a", "b"] := by
  constructor
  · intro ops
    exact sortedA_applyOps ops Context.new rfl
  · decide


theorem extend_eq_foldl_insert (data : List (String × Value)) :
    ∀ c : Context,
      c.extend data = data.foldl (fun acc kv => acc.insert kv.1 kv.2) c := by
  induction data with
  | nil => intro c; rfl
  | cons hd t ih =>
    intro c
    exact ih (c.insert hd.1 hd.2)

theorem get_extend (data : List (String × Value))
    (hd : sortedA cmpString data = true) :
    ∀ (c : Context) (k : String),
      (c.extend data).get k =
        (match lookupA cmpString k data with
          | some v => some v
          | none => c.get k) := by
  induction data with
  | nil => intro c k; rfl
  | cons hd0 t ih =>
    intro c k
    obtain ⟨k₀, v₀⟩ := hd0
    rw [sortedA_cons_iff] at hd
    obtain ⟨h1, h2⟩ := hd
    rw [extend_cons]
    rw [ih h2 (c.insert k₀ v₀) k]
    cases hl : lookupA cmpString k t with
    | some v =>
      obtain ⟨p, hp, hpe⟩ := lookupA_some_mem hl
      have hk : k = p.1 := (cmpString_eq_iff k p.1).mp hpe
      have hgt : cmpString k k₀ = .gt := by
        rw [cmpString_gt_iff_lt, hk]
        exact h1 p hp
      rw [lookupA_cons_ne v₀ t (by rw [hgt]; simp), hl]
    | none =>
      by_cases hek : cmpString k k₀ = .eq
      · have hk : k = k₀ := (cmpString_eq_iff k k₀).mp hek
        rw [lookupA_cons_eq v₀ t hek]
        subst hk
        exact lookupA_insertA_self cmpString k (cmpString_refl k) v₀ c.inner
      · rw [lookupA_cons_ne v₀ t hek, hl]
        exact lookupA_insertA_ne cmpString cmpString_eq_iff v₀ c.inner
          (fun h => hek ((cmpString_eq_iff k k₀).mpr h))

theorem get_extend_not_mem (data : List (String × Value)) :
    ∀ (c : Context) (k' : String), lookupA cmpString k' data = none →
      (c.extend data).get k' = c.get k' := by
  induction data with
  | nil => intro c k' _; rfl
  | cons hd0 t ih =>
    intro c k' hnone
    obtain ⟨k₀, v₀⟩ := hd0
    have hne₀ : cmpString k' k₀ ≠ .eq := by
      intro h
      rw [lookupA_cons_eq v₀ t h] at hnone
      cases hnone
    have htl : lookupA cmpString k' t = none := by
      rw [lookupA_cons_ne v₀ t hne₀] at hnone
      exact hnone
    rw [extend_cons]
    rw [ih (c.insert k₀ v₀) k' htl]
    exact lookupA_insertA_ne cmpString cmpString_eq_iff v₀ c.inner
      (fun h => hne₀ ((cmpString_eq_iff k' k₀).mpr h))

/-- C7: insert has upsert semantics — inserting `k, v1` then `k, v2` leaves
exactly one entry for `k` (the filtered entry list is the singleton
`[(k, v2)]`) and lookup of `k` yields `v2`; insertion is a total operation
that overwrites silently. -/
theorem c7_insert_upsert (c : Context) (k : String) (v1 v2 : Value)
    (hs : sortedA cmpString c.inner = true) :
    ((c.insert k v1).insert k v2).inner.filter (fun kv => kv.1 == k)
        = [(k, v2)] ∧
      ((c.insert k v1).insert k v2).get k = some v2 := by
  have hlg := cmpString_gt_iff_lt
  have htr : ∀ a b d : String, cmpString a b = .lt → cmpString b d = .lt →
      cmpString a d = .lt := fun _ _ _ => cmpString_lt_trans
  have hs2 : sortedA cmpString ((c.insert k v1).insert k v2).inner = true :=
    sortedA_insertA cmpString hlg htr k v2
      (sortedA_insertA cmpString hlg htr k v1 hs)
  have hget : ((c.insert k v1).insert k v2).get k = some v2 :=
    lookupA_insertA_self cmpString k (cmpString_refl k) v2 _
  refine ⟨?_, hget⟩
  rw [filter_beq_key_of_sorted k _ hs2]
  have h : lookupA cmpString k ((c.insert k v1).insert k v2).inner = some v2 :=
    hget
  rw [h]

/-- Witness for C7 at a concrete input. -/
theorem c7_insert_upsert_witness :
    ((Context.new.insert "k" (Value.String "a")).insert "k"
        (Value.String "b")).inner.filter (fun kv => kv.1 == "k")
        = [("k", Value.String "b")] ∧
      ((Context.new.insert "k" (Value.String "a")).insert "k"
        (Value.String "b")).get "k" = some (Value.String "b") :=
  c7_insert_upsert Context.new "k" (Value.String "a") (Value.String "b") rfl

/-- C8: extend is repeated insert with last-writer-wins precedence — it is
the fold of `insert` over `data`, and a lookup after `extend data` yields
the value from `data` when the key occurs there, the prior value
otherwise. -/
theorem c8_extend_precedence (c : Context) (data : List (String × Value))
    (k : String) (hd : sortedA cmpString data = true) :
    c.extend data = data.foldl (fun acc kv => acc.insert kv.1 kv.2) c ∧
      (c.extend data).get k =
        (match lookupA cmpString k data with
          | some v => some v
          | none => c.get k) :=
  ⟨extend_eq_foldl_insert data c, get_extend data hd c k⟩

/-- Witness for C8 at a concrete input: `extend` of a singleton map on an
occupied key overwrites, as in the specification's example. -/
theorem c8_extend_precedence_witness :
    ((Context.new.insert "k" (Value.String "v1")).extend
        [("k", Value.String "v2")]).get "k" = some (Value.String "v2") := by
  have h := (c8_extend_precedence (Context.new.insert "k" (Value.String "v1"))
    [("k", Value.String "v2")] "k" rfl).2
  rw [h]
  rfl

/-- C10: insert and extend only affect the keys they are given — any other
key reads the same value as before. -/
theorem c10_frame (c : Context) (k : String) (v : Value) (k' : String)
    (data : List (String × Value)) (hne : k' ≠ k)
    (hd : lookupA cmpString k' data = none) :
    (c.insert k v).get k' = c.get k' ∧
      (c.extend data).get k' = c.get k' :=
  ⟨lookupA_insertA_ne cmpString cmpString_eq_iff v c.inner hne,
   get_extend_not_mem data c k' hd⟩

/-- Witness for C10 at a concrete input. -/
theorem c10_frame_witness :
    ((Context.new.insert "a" (Value.String "x")).insert "b"
        (Value.String "y")).get "a" = some (Value.String "x") ∧
      ((Context.new.insert "a" (Value.String "x")).extend
        [("b", Value.String "y")]).get "a" = some (Value.String "x") := by
  have h := c10_frame (Context.new.insert "a" (Value.String "x")) "b"
    (Value.String "y") "a" [("b", Value.String "y")] (by decide) rfl
  exact ⟨h.1.trans rfl, h.2.trans rfl⟩

/-- Modelled from the spec: the format-native JSON parse tree produced by the
external JSON engine (`serde_json::Value`), which is also the JSON-compatible
intermediate the YAML loader materializes before the Dynamic Value
conversion. Numbers keep the engine's split: a non-negative integer
(`u64`-ranged), a negative integer (`i64`-ranged), or a finite float. -/
inductive JValue where
  | null
  | bool (b : Bool)
  | uint (n : Nat)
  | nint (i : Int)
  | float (q : Rat)
  | str (s : String)
  | arr (xs : List JValue)
  | obj (kvs : List (String × JValue))

/-- Modelled from the spec: the format-native TOML parse tree produced by the
external TOML engine. TOML has one integer type, signed 64-bit, so integers
carry an `Int`; date-time values are outside the modelled subset (no claim
touches them). -/
inductive TomlValue where
  | bool (b : Bool)
  | int (i : Int)
  | float (q : Rat)
  | str (s : String)
  | arr (xs : List TomlValue)
  | table (kvs : List (String × TomlValue))

/-- Modelled from the spec: the format-native XML parse tree produced by the
external XML engine — each element is a mapping holding a reserved text
content key (the `$value`-style key) alongside child-element keys, and leaf
content is text. -/
inductive XmlValue where
  | text (s : String)
  | node (kvs : List (String × XmlValue))

/-- Modelled from the spec: the visitor half of the per-entry conversion of a
parser-produced native value into a Dynamic Value (the `Deserialize` visitor
the conversion step drives). A method returning `none` is the conversion's
failure branch for that shape — the branch the source unwraps. -/
structure Visitor (alpha : Type) where
  visitBool : Bool → Option alpha
  visitU64 : Nat → Option alpha
  visitI64 : Int → Option alpha
  visitF64 : Rat → Option alpha
  visitStr : String → Option alpha
  visitUnit : Option alpha
  visitSeq : List alpha → Option alpha
  visitMap : List (alpha × alpha) → Option alpha

section Drivers

variable {alpha : Type}

mutual

/-- Driver of a visitor over a JSON tree, mirroring how the JSON engine's
`Deserializer` feeds each native value to the conversion visitor:
null drives the unit method, a non-negative integer the unsigned 64-bit
method, a negative integer the signed 64-bit method, and composite nodes
drive their children first. -/
def driveJson (vis : Visitor alpha) : JValue → Option alpha
  | .null => vis.visitUnit
  | .bool b => vis.visitBool b
  | .uint n => vis.visitU64 n
  | .nint i => vis.visitI64 i
  | .float q => vis.visitF64 q
  | .str s => vis.visitStr s
  | .arr xs =>
    match driveJsonList vis xs with
    | some ys => vis.visitSeq ys
    | none => none
  | .obj kvs =>
    match driveJsonPairs vis kvs with
    | some ps => vis.visitMap ps
    | none => none

/-- Drives every element of a JSON array. -/
def driveJsonList (vis : Visitor alpha) : List JValue → Option (List alpha)
  | [] => some []
  | x :: t =>
    match driveJson vis x, driveJsonList vis t with
    | some y, some ys => some (y :: ys)
    | _, _ => none

/-- Drives every entry of a JSON object; keys are driven as strings. -/
def driveJsonPairs (vis : Visitor alpha) :
    List (String × JValue) → Option (List (alpha × alpha))
  | [] => some []
  | (k, x) :: t =>
    match vis.visitStr k, driveJson vis x, driveJsonPairs vis t with
    | some ky, some y, some ys => some ((ky, y) :: ys)
    | _, _, _ => none

end

mutual

/-- Driver of a visitor over a TOML tree: a TOML integer drives the signed
64-bit method — this is where TOML's integer signedness enters the
conversion, unlike JSON's unsigned path for non-negative numbers. -/
def driveToml (vis : Visitor alpha) : TomlValue → Option alpha
  | .bool b => vis.visitBool b
  | .int i => vis.visitI64 i
  | .float q => vis.visitF64 q
  | .str s => vis.visitStr s
  | .arr xs =>
    match driveTomlList vis xs with
    | some ys => vis.visitSeq ys
    | none => none
  | .table kvs =>
    match driveTomlPairs vis kvs with
    | some ps => vis.visitMap ps
    | none => none

/-- Drives every element of a TOML array. -/
def driveTomlList (vis : Visitor alpha) : List TomlValue → Option (List alpha)
  | [] => some []
  | x :: t =>
    match driveToml vis x, driveTomlList vis t with
    | some y, some ys => some (y :: ys)
    | _, _ => none

/-- Drives every entry of a TOML table; keys are driven as strings. -/
def driveTomlPairs (vis : Visitor alpha) :
    List (String × TomlValue) → Option (List (alpha × alpha))
  | [] => some []
  | (k, x) :: t =>
    match vis.visitStr k, driveToml vis x, driveTomlPairs vis t with
    | some ky, some y, some ys => some ((ky, y) :: ys)
    | _, _, _ => none

end

mutual

/-- Driver of a visitor over an XML tree: text content drives the string
method, an element drives the map method over its keyed children. -/
def driveXml (vis : Visitor alpha) : XmlValue → Option alpha
  | .text s => vis.visitStr s
  | .node kvs =>
    match driveXmlPairs vis kvs with
    | some ps => vis.visitMap ps
    | none => none

/-- Drives every keyed child of an XML element. -/
def driveXmlPairs (vis : Visitor alpha) :
    List (String × XmlValue) → Option (List (alpha × alpha))
  | [] => some []
  | (k, x) :: t =>
    match vis.visitStr k, driveXml vis x, driveXmlPairs vis t with
    | some ky, some y, some ys => some ((ky, y) :: ys)
    | _, _, _ => none

end

end Drivers

/-- Conversion target visitor building a Dynamic Value, mirroring
`serde_value`'s value visitor: every method succeeds, for every shape the
format drivers can feed it. Maps are collected into a
`BTreeMap<Value, Value>`. -/
def valueVisitor : Visitor Value where
  visitBool b := some (.Bool b)
  visitU64 n := some (.U64 n)
  visitI64 i := some (.I64 i)
  visitF64 q := some (.F64 q)
  visitStr s := some (.String s)
  visitUnit := some .Unit
  visitSeq xs := some (.Seq xs)
  visitMap ps := some (.Map (collectA Value.cmp ps))

/-- Per-entry application of a fallible conversion, keeping the keys: the
shape shared by every parse path (convert each top-level value) and every
serialize path (build each native value). -/
def mapEntries {gam del : Type} (f : gam → Option del) :
    List (String × gam) → Option (List (String × del))
  | [] => some []
  | (k, x) :: t =>
    match f x, mapEntries f t with
    | some y, some ys => some ((k, y) :: ys)
    | _, _ => none

mutual

/-- Modelled from the spec: the structural mapping of a Dynamic Value into
the external JSON printer's native tree (step 1 of `to_json`). Unsigned and
non-negative signed integers print as non-negative numbers, negative ones as
negative numbers; a character prints as a one-character string; unit and an
absent optional print as null; a present optional and a newtype print
transparently; bytes print as an array of numbers. A mapping whose keys are
not strings is modelled as the printer failure. -/
def serializeJson : Value → Option JValue
  | .Bool b => some (.bool b)
  | .U8 n => some (.uint n)
  | .U16 n => some (.uint n)
  | .U32 n => some (.uint n)
  | .U64 n => some (.uint n)
  | .I8 i => some (if 0 ≤ i then .uint i.toNat else .nint i)
  | .I16 i => some (if 0 ≤ i then .uint i.toNat else .nint i)
  | .I32 i => some (if 0 ≤ i then .uint i.toNat else .nint i)
  | .I64 i => some (if 0 ≤ i then .uint i.toNat else .nint i)
  | .F32 q => some (.float q)
  | .F64 q => some (.float q)
  | .Char c => some (.str (String.singleton c))
  | .String s => some (.str s)
  | .Unit => some .null
  | .Option none => some .null
  | .Option (some v) => serializeJson v
  | .Newtype v => serializeJson v
  | .Seq xs =>
    match serializeJsonList xs with
    | some ys => some (.arr ys)
    | none => none
  | .Map m =>
    match serializeJsonPairs m with
    | some ps => some (.obj ps)
    | none => none
  | .Bytes bs => some (.arr (bs.map .uint))

/-- Serializes every element of a sequence into the JSON tree. -/
def serializeJsonList : List Value → Option (List JValue)
  | [] => some []
  | x :: t =>
    match serializeJson x, serializeJsonList t with
    | some y, some ys => some (y :: ys)
    | _, _ => none

/-- Serializes every entry of a mapping into the JSON tree; keys must be
string values. -/
def serializeJsonPairs : List (Value × Value) → Option (List (String × JValue))
  | [] => some []
  | (.String s, v) :: t =>
    match serializeJson v, serializeJsonPairs t with
    | some j, some js => some ((s, j) :: js)
    | _, _ => none
  | (_, _) :: _ => none

end

mutual

/-- Modelled from the spec: the structural mapping of a Dynamic Value into
the external TOML printer's native tree. TOML has no null, so unit and an
absent optional are the printer failure; integers (signed or unsigned)
become TOML's signed integers. -/
def serializeToml : Value → Option TomlValue
  | .Bool b => some (.bool b)
  | .U8 n => some (.int n)
  | .U16 n => some (.int n)
  | .U32 n => some (.int n)
  | .U64 n => some (.int n)
  | .I8 i => some (.int i)
  | .I16 i => some (.int i)
  | .I32 i => some (.int i)
  | .I64 i => some (.int i)
  | .F32 q => some (.float q)
  | .F64 q => some (.float q)
  | .Char c => some (.str (String.singleton c))
  | .String s => some (.str s)
  | .Unit => none
  | .Option none => none
  | .Option (some v) => serializeToml v
  | .Newtype v => serializeToml v
  | .Seq xs =>
    match serializeTomlList xs with
    | some ys => some (.arr ys)
    | none => none
  | .Map m =>
    match serializeTomlPairs m with
    | some ps => some (.table ps)
    | none => none
  | .Bytes bs => some (.arr (bs.map fun n => .int n))

/-- Serializes every element of a sequence into the TOML tree. -/
def serializeTomlList : List Value → Option (List TomlValue)
  | [] => some []
  | x :: t =>
    match serializeToml x, serializeTomlList t with
    | some y, some ys => some (y :: ys)
    | _, _ => none

/-- Serializes every entry of a mapping into the TOML tree; keys must be
string values. -/
def serializeTomlPairs :
    List (Value × Value) → Option (List (String × TomlValue))
  | [] => some []
  | (.String s, v) :: t =>
    match serializeToml v, serializeTomlPairs t with
    | some j, some js => some ((s, j) :: js)
    | _, _ => none
  | (_, _) :: _ => none

end

mutual

/-- Modelled from the spec: the structural mapping of a Dynamic Value into
the external XML printer's native tree — strings become text content,
string-keyed mappings become elements; other shapes are the printer
failure (no claim exercises them). -/
def serializeXml : Value → Option XmlValue
  | .String s => some (.text s)
  | .Map m =>
    match serializeXmlPairs m with
    | some ps => some (.node ps)
    | none => none
  | _ => none

/-- Serializes every entry of a mapping into the XML tree; keys must be
string values. -/
def serializeXmlPairs :
    List (Value × Value) → Option (List (String × XmlValue))
  | [] => some []
  | (.String s, v) :: t =>
    match serializeXml v, serializeXmlPairs t with
    | some j, some js => some ((s, j) :: js)
    | _, _ => none
  | (_, _) :: _ => none

end

/-- Decides whether a value is a string (the only map key shape the JSON
object form can carry). -/
def isStringKeyB : Value → Bool
  | .String _ => true
  | _ => false

mutual

/-- Decides membership in the JSON-representable subset of Dynamic Value:
the exact image of the JSON parse path — unit (null), booleans, unsigned
64-bit numbers, negative signed 64-bit numbers, strings, sequences of
representable values, and mappings with string keys and representable
values whose entries obey the `BTreeMap` ordering invariant. Floats are
excluded, matching the round-trip claim's float carve-out. -/
def jsonRepr : Value → Bool
  | .Unit => true
  | .Bool _ => true
  | .U64 _ => true
  | .I64 i => decide (i < 0)
  | .String _ => true
  | .Seq xs => jsonReprList xs
  | .Map m => sortedA Value.cmp m && jsonReprPairs m
  | _ => false

/-- Every element of a sequence is JSON-representable. -/
def jsonReprList : List Value → Bool
  | [] => true
  | x :: t => jsonRepr x && jsonReprList t

/-- Every entry of a mapping has a string key and a JSON-representable
value. -/
def jsonReprPairs : List (Value × Value) → Bool
  | [] => true
  | (k, v) :: t => isStringKeyB k && jsonRepr v && jsonReprPairs t

end

/-- Decides the JSON-representability of a whole context: its entry list
obeys the `BTreeMap` ordering invariant and every stored value is
JSON-representable. -/
def contextJsonRepr (c : Context) : Bool :=
  sortedA cmpString c.inner && c.inner.all fun kv => jsonRepr kv.2

/-- Embedding of `Context::from_json`: the external parser — a parameter,
per the engine contract of the spec — either fails, in which case its
message is translated into `Error.Json` and returned at once with no
Context, or yields the native top-level entries, each of which is converted
into a Dynamic Value and collected into a Context. The outer `Option` is
`none` exactly when some per-entry conversion fails, which in the source is
the unwrapped halt. -/
def Context.from_json
    (parse : String → Except String (List (String × JValue)))
    (json : String) : Option (Except Error Context) :=
  match parse json with
  | .error e => some (.error (Error.Json e))
  | .ok l =>
    match mapEntries (driveJson valueVisitor) l with
    | some pairs => some (.ok (Context.ofPairs pairs))
    | none => none

/-- Embedding of `Context::from_toml`: as `from_json`, with the TOML engine
and `Error.Toml`. -/
def Context.from_toml
    (parse : String → Except String (List (String × TomlValue)))
    (toml : String) : Option (Except Error Context) :=
  match parse toml with
  | .error e => some (.error (Error.Toml e))
  | .ok l =>
    match mapEntries (driveToml valueVisitor) l with
    | some pairs => some (.ok (Context.ofPairs pairs))
    | none => none

/-- Embedding of `Context::from_yaml`: the YAML engine materializes the same
JSON-compatible intermediate tree as the JSON path (the source parses into
`BTreeMap<String, serde_json::Value>`), so the conversion is the JSON
driver; a parse failure is translated into `Error.Yaml`. -/
def Context.from_yaml
    (parse : String → Except String (List (String × JValue)))
    (yaml : String) : Option (Except Error Context) :=
  match parse yaml with
  | .error e => some (.error (Error.Yaml e))
  | .ok l =>
    match mapEntries (driveJson valueVisitor) l with
    | some pairs => some (.ok (Context.ofPairs pairs))
    | none => none

/-- Embedding of `Context::from_xml`: as `from_json`, with the XML engine
and `Error.Xml`. -/
def Context.from_xml
    (parse : String → Except String (List (String × XmlValue)))
    (xml : String) : Option (Except Error Context) :=
  match parse xml with
  | .error e => some (.error (Error.Xml e))
  | .ok l =>
    match mapEntries (driveXml valueVisitor) l with
    | some pairs => some (.ok (Context.ofPairs pairs))
    | none => none

/-- Native JSON tree of a context's entries (step 1 of `to_json`). -/
def jsonTreeOf (c : Context) : Option (List (String × JValue)) :=
  mapEntries serializeJson c.inner

/-- Embedding of `Context::to_json`: the context's entries are mapped into
the printer's native tree in key order and handed to the external printer
(a parameter) together with the `pretty` option; a value the format cannot
represent is the printer failure, translated into `Error.Json`. -/
def Context.to_json (prn : Bool → List (String × JValue) → String)
    (c : Context) (pretty : Bool) : Except Error String :=
  match jsonTreeOf c with
  | some t => .ok (prn pretty t)
  | none => .error (Error.Json "serialization error")

/-- Embedding of `Context::to_toml`: as `to_json`, with the TOML printer,
the `pretty` option and `Error.Toml`. -/
def Context.to_toml (prn : Bool → List (String × TomlValue) → String)
    (c : Context) (pretty : Bool) : Except Error String :=
  match mapEntries serializeToml c.inner with
  | some t => .ok (prn pretty t)
  | none => .error (Error.Toml "serialization error")

/-- Embedding of `Context::to_yaml`: as `to_json` but with no options — the
YAML printer always renders its canonical style — and `Error.Yaml`. The
native tree is the JSON-compatible intermediate. -/
def Context.to_yaml (prn : List (String × JValue) → String)
    (c : Context) : Except Error String :=
  match mapEntries serializeJson c.inner with
  | some t => .ok (prn t)
  | none => .error (Error.Yaml "serialization error")

/-- Embedding of `Context::to_xml`: as `to_yaml`, with the XML printer and
`Error.Xml`. -/
def Context.to_xml (prn : List (String × XmlValue) → String)
    (c : Context) : Except Error String :=
  match mapEntries serializeXml c.inner with
  | some t => .ok (prn t)
  | none => .error (Error.Xml "serialization error")

/-- C3: whenever the external JSON parser rejects the input text, `from_json`
returns an error of the Json kind carrying the parser's message — no halt,
and no Context inside the result. -/
theorem c3_invalid_json_error
    (parse : String → Except String (List (String × JValue)))
    (text msg : String) (h : parse text = .error msg) :
    Context.from_json parse text = some (.error (Error.Json msg)) := by
  simp only [Context.from_json, h]

/-- Witness for C3 at the specification's example input, with an engine that
rejects it. -/
theorem c3_invalid_json_error_witness :
    Context.from_json
        (fun _ => Except.error "expected ident at line 1 column 3")
        "\x7b invalid_json \x7d"
      = some (.error (Error.Json "expected ident at line 1 column 3")) :=
  c3_invalid_json_error (fun _ => Except.error "expected ident at line 1 column 3")
    "\x7b invalid_json \x7d" "expected ident at line 1 column 3" rfl

mutual

theorem driveJson_total : ∀ j : JValue,
    (driveJson valueVisitor j).isSome = true
  | .null => rfl
  | .bool _ => rfl
  | .uint _ => rfl
  | .nint _ => rfl
  | .float _ => rfl
  | .str _ => rfl
  | .arr xs => by
    have h := driveJsonList_total xs
    cases heq : driveJsonList valueVisitor xs with
    | none => rw [heq] at h; cases h
    | some ys => simp only [driveJson, heq]; rfl
  | .obj kvs => by
    have h := driveJsonPairs_total kvs
    cases heq : driveJsonPairs valueVisitor kvs with
    | none => rw [heq] at h; cases h
    | some ps => simp only [driveJson, heq]; rfl

theorem driveJsonList_total : ∀ xs : List JValue,
    (driveJsonList valueVisitor xs).isSome = true
  | [] => rfl
  | x :: t => by
    have h1 := driveJson_total x
    have h2 := driveJsonList_total t
    cases heq1 : driveJson valueVisitor x with
    | none => rw [heq1] at h1; cases h1
    | some y =>
      cases heq2 : driveJsonList valueVisitor t with
      | none => rw [heq2] at h2; cases h2
      | some ys => simp only [driveJsonList, heq1, heq2]; rfl

theorem driveJsonPairs_total : ∀ kvs : List (String × JValue),
    (driveJsonPairs valueVisitor kvs).isSome = true
  | [] => rfl
  | (k, x) :: t => by
    have h1 := driveJson_total x
    have h2 := driveJsonPairs_total t
    cases heq1 : driveJson valueVisitor x with
    | none => rw [heq1] at h1; cases h1
    | some y =>
      cases heq2 : driveJsonPairs valueVisitor t with
      | none => rw [heq2] at h2; cases h2
      | some ys => simp only [driveJsonPairs, heq1, heq2]; rfl

end

mutual

theorem driveToml_total : ∀ x : TomlValue,
    (driveToml valueVisitor x).isSome = true
  | .bool _ => rfl
  | .int _ => rfl
  | .float _ => rfl
  | .str _ => rfl
  | .arr xs => by
    have h := driveTomlList_total xs
    cases heq : driveTomlList valueVisitor xs with
    | none => rw [heq] at h; cases h
    | some ys => simp only [driveToml, heq]; rfl
  | .table kvs => by
    have h := driveTomlPairs_total kvs
    cases heq : driveTomlPairs valueVisitor kvs with
    | none => rw [heq] at h; cases h
    | some ps => simp only [driveToml, heq]; rfl

theorem driveTomlList_total : ∀ xs : List TomlValue,
    (driveTomlList valueVisitor xs).isSome = true
  | [] => rfl
  | x :: t => by
    have h1 := driveToml_total x
    have h2 := driveTomlList_total t
    cases heq1 : driveToml valueVisitor x with
    | none => rw [heq1] at h1; cases h1
    | some y =>
      cases heq2 : driveTomlList valueVisitor t with
      | none => rw [heq2] at h2; cases h2
      | some ys => simp only [driveTomlList, heq1, heq2]; rfl

theorem driveTomlPairs_total : ∀ kvs : List (String × TomlValue),
    (driveTomlPairs valueVisitor kvs).isSome = true
  | [] => rfl
  | (k, x) :: t => by
    have h1 := driveToml_total x
    have h2 := driveTomlPairs_total t
    cases heq1 : driveToml valueVisitor x with
    | none => rw [heq1] at h1; cases h1
    | some y =>
      cases heq2 : driveTomlPairs valueVisitor t with
      | none => rw [heq2] at h2; cases h2
      | some ys => simp only [driveTomlPairs, heq1, heq2]; rfl

end

mutual

theorem driveXml_total : ∀ x : XmlValue,
    (driveXml valueVisitor x).isSome = true
  | .text _ => rfl
  | .node kvs => by
    have h := driveXmlPairs_total kvs
    cases heq : driveXmlPairs valueVisitor kvs with
    | none => rw [heq] at h; cases h
    | some ps => simp only [driveXml, heq]; rfl

theorem driveXmlPairs_total : ∀ kvs : List (String × XmlValue),
    (driveXmlPairs valueVisitor kvs).isSome = true
  | [] => rfl
  | (k, x) :: t => by
    have h1 := driveXml_total x
    have h2 := driveXmlPairs_total t
    cases heq1 : driveXml valueVisitor x with
    | none => rw [heq1] at h1; cases h1
    | some y =>
      cases heq2 : driveXmlPairs valueVisitor t with
      | none => rw [heq2] at h2; cases h2
      | some ys => simp only [driveXmlPairs, heq1, heq2]; rfl

end

theorem mapEntries_isSome {gam del : Type} (f : gam → Option del)
    (hf : ∀ x, (f x).isSome = true) :
    ∀ l : List (String × gam), (mapEntries f l).isSome = true
  | [] => rfl
  | (k, x) :: t => by
    have h1 := hf x
    have h2 := mapEntries_isSome f hf t
    cases heq1 : f x with
    | none => rw [heq1] at h1; cases h1
    | some y =>
      cases heq2 : mapEntries f t with
      | none => rw [heq2] at h2; cases h2
      | some ys => simp [mapEntries, heq1, heq2]

/-- C9: in every parse path, the per-entry conversion of a parser-produced
native value into a Dynamic Value always succeeds — for every input text and
every behaviour of the external parser, the conversion's failure branch is
unreachable, so no `from_F` halts, drops an entry, or returns a corrupt
Context. -/
theorem c9_conversion_never_fails :
    (∀ (parse : String → Except String (List (String × JValue)))
      (text : String), (Context.from_json parse text).isSome = true) ∧
    (∀ (parse : String → Except String (List (String × TomlValue)))
      (text : String), (Context.from_toml parse text).isSome = true) ∧
    (∀ (parse : String → Except String (List (String × JValue)))
      (text : String), (Context.from_yaml parse text).isSome = true) ∧
    (∀ (parse : String → Except String (List (String × XmlValue)))
      (text : String), (Context.from_xml parse text).isSome = true) := by
  refine ⟨?_, ?_, ?_, ?_⟩
  · intro parse text
    cases hp : parse text with
    | error e => simp [Context.from_json, hp]
    | ok l =>
      have h := mapEntries_isSome _ driveJson_total l
      cases heq : mapEntries (driveJson valueVisitor) l with
      | none => rw [heq] at h; cases h
      | some pairs => simp [Context.from_json, hp, heq]
  · intro parse text
    cases hp : parse text with
    | error e => simp [Context.from_toml, hp]
    | ok l =>
      have h := mapEntries_isSome _ driveToml_total l
      cases heq : mapEntries (driveToml valueVisitor) l with
      | none => rw [heq] at h; cases h
      | some pairs => simp [Context.from_toml, hp, heq]
  · intro parse text
    cases hp : parse text with
    | error e => simp [Context.from_yaml, hp]
    | ok l =>
      have h := mapEntries_isSome _ driveJson_total l
      cases heq : mapEntries (driveJson valueVisitor) l with
      | none => rw [heq] at h; cases h
      | some pairs => simp [Context.from_yaml, hp, heq]
  · intro parse text
    cases hp : parse text with
    | error e => simp [Context.from_xml, hp]
    | ok l =>
      have h := mapEntries_isSome _ driveXml_total l
      cases heq : mapEntries (driveXml valueVisitor) l with
      | none => rw [heq] at h; cases h
      | some pairs => simp [Context.from_xml, hp, heq]

/-- C4: when the TOML engine parses its scenario input to the native entries
`age = integer 30, name = string "Alice"` and the JSON engine parses its
scenario input to `age = non-negative number 30, name = string "Alice"`,
`from_toml` stores `age` as the signed 64-bit value `I64 30` while
`from_json` stores it as the unsigned `U64 30` — the numeric kind follows
each format's native integer signedness. -/
theorem c4_integer_signedness
    (tparse : String → Except String (List (String × TomlValue)))
    (jparse : String → Except String (List (String × JValue)))
    (ttext jtext : String)
    (ht : tparse ttext
      = .ok [("age", TomlValue.int 30), ("name", TomlValue.str "Alice")])
    (hj : jparse jtext
      = .ok [("age", JValue.uint 30), ("name", JValue.str "Alice")]) :
    (∃ c, Context.from_toml tparse ttext = some (.ok c) ∧
      c.get "age" = some (Value.I64 30) ∧
      c.get "name" = some (Value.String "Alice")) ∧
    (∃ c, Context.from_json jparse jtext = some (.ok c) ∧
      c.get "age" = some (Value.U64 30) ∧
      c.get "name" = some (Value.String "Alice")) := by
  constructor
  · refine ⟨Context.ofPairs
      [("age", Value.I64 30), ("name", Value.String "Alice")], ?_, rfl, rfl⟩
    simp only [Context.from_toml, ht]
    rfl
  · refine ⟨Context.ofPairs
      [("age", Value.U64 30), ("name", Value.String "Alice")], ?_, rfl, rfl⟩
    simp only [Context.from_json, hj]
    rfl

/-- Witness for C4 at the specification's scenario inputs, with engines that
produce the scenario parse trees. -/
theorem c4_integer_signedness_witness :
    (∃ c, Context.from_toml
        (fun _ => Except.ok
          [("age", TomlValue.int 30), ("name", TomlValue.str "Alice")])
        "name = \"Alice\"\nage = 30" = some (.ok c) ∧
      c.get "age" = some (Value.I64 30) ∧
      c.get "name" = some (Value.String "Alice")) ∧
    (∃ c, Context.from_json
        (fun _ => Except.ok
          [("age", JValue.uint 30), ("name", JValue.str "Alice")])
        "\x7b\"name\": \"Alice\", \"age\": 30\x7d" = some (.ok c) ∧
      c.get "age" = some (Value.U64 30) ∧
      c.get "name" = some (Value.String "Alice")) :=
  c4_integer_signedness
    (fun _ => Except.ok
      [("age", TomlValue.int 30), ("name", TomlValue.str "Alice")])
    (fun _ => Except.ok
      [("age", JValue.uint 30), ("name", JValue.str "Alice")])
    "name = \"Alice\"\nage = 30"
    "\x7b\"name\": \"Alice\", \"age\": 30\x7d" rfl rfl

/-- C5: the YAML parse path materializes the same JSON-compatible
intermediate tree as the JSON parse path, so whenever the YAML engine
produces the same native tree for its input as the JSON engine does for the
equivalent JSON text, `from_yaml` and `from_json` produce the same result;
in particular the scenario input yields `name = String "Alice"` and
`age = U64 30`. -/
theorem c5_yaml_via_json_intermediate
    (yparse jparse : String → Except String (List (String × JValue)))
    (ytext jtext : String) (tree : List (String × JValue))
    (hy : yparse ytext = .ok tree) (hj : jparse jtext = .ok tree) :
    Context.from_yaml yparse ytext = Context.from_json jparse jtext ∧
    (tree = [("age", JValue.uint 30), ("name", JValue.str "Alice")] →
      ∃ c, Context.from_yaml yparse ytext = some (.ok c) ∧
        c.get "name" = some (Value.String "Alice") ∧
        c.get "age" = some (Value.U64 30)) := by
  constructor
  · simp only [Context.from_yaml, Context.from_json, hy, hj]
  · intro htree
    subst htree
    refine ⟨Context.ofPairs
      [("age", Value.U64 30), ("name", Value.String "Alice")], ?_, rfl, rfl⟩
    simp only [Context.from_yaml, hy]
    rfl

/-- Witness for C5 at the specification's scenario input, with engines that
produce the scenario parse tree. -/
theorem c5_yaml_via_json_intermediate_witness :
    Context.from_yaml
        (fun _ => Except.ok
          [("age", JValue.uint 30), ("name", JValue.str "Alice")])
        "name: Alice\nage: 30"
      = Context.from_json
        (fun _ => Except.ok
          [("age", JValue.uint 30), ("name", JValue.str "Alice")])
        "\x7b\"name\": \"Alice\", \"age\": 30\x7d" ∧
    (∃ c, Context.from_yaml
        (fun _ => Except.ok
          [("age", JValue.uint 30), ("name", JValue.str "Alice")])
        "name: Alice\nage: 30" = some (.ok c) ∧
      c.get "name" = some (Value.String "Alice") ∧
      c.get "age" = some (Value.U64 30)) := by
  have h := c5_yaml_via_json_intermediate
    (fun _ => Except.ok
      [("age", JValue.uint 30), ("name", JValue.str "Alice")])
    (fun _ => Except.ok
      [("age", JValue.uint 30), ("name", JValue.str "Alice")])
    "name: Alice\nage: 30" "\x7b\"name\": \"Alice\", \"age\": 30\x7d"
    [("age", JValue.uint 30), ("name", JValue.str "Alice")] rfl rfl
  exact ⟨h.1, h.2 rfl⟩

/-- C6: for the empty Context, `to_F` succeeds for every enabled format —
JSON and TOML with either value of their `pretty` option — handing the
empty native tree to the printer, and parsing the printed text back with
`from_F` yields the empty Context again whenever the engine parses its own
empty rendering to the empty tree. -/
theorem c6_empty_roundtrip
    (jprn : Bool → List (String × JValue) → String)
    (jparse : String → Except String (List (String × JValue)))
    (tprn : Bool → List (String × TomlValue) → String)
    (tparse : String → Except String (List (String × TomlValue)))
    (yprn : List (String × JValue) → String)
    (yparse : String → Except String (List (String × JValue)))
    (xprn : List (String × XmlValue) → String)
    (xparse : String → Except String (List (String × XmlValue)))
    (pj pt : Bool)
    (hj : jparse (jprn pj []) = .ok [])
    (ht : tparse (tprn pt []) = .ok [])
    (hy : yparse (yprn []) = .ok [])
    (hx : xparse (xprn []) = .ok []) :
    (Context.to_json jprn Context.new pj = .ok (jprn pj []) ∧
      Context.from_json jparse (jprn pj []) = some (.ok Context.new)) ∧
    (Context.to_toml tprn Context.new pt = .ok (tprn pt []) ∧
      Context.from_toml tparse (tprn pt []) = some (.ok Context.new)) ∧
    (Context.to_yaml yprn Context.new = .ok (yprn []) ∧
      Context.from_yaml yparse (yprn []) = some (.ok Context.new)) ∧
    (Context.to_xml xprn Context.new = .ok (xprn []) ∧
      Context.from_xml xparse (xprn []) = some (.ok Context.new)) := by
  refine ⟨⟨rfl, ?_⟩, ⟨rfl, ?_⟩, ⟨rfl, ?_⟩, ⟨rfl, ?_⟩⟩
  · simp only [Context.from_json, hj]; rfl
  · simp only [Context.from_toml, ht]; rfl
  · simp only [Context.from_yaml, hy]; rfl
  · simp only [Context.from_xml, hx]; rfl

/-- Witness for C6 with concrete engines: printers that render the empty
tree and parsers that accept the rendering back to the empty tree. -/
theorem c6_empty_roundtrip_witness :
    (Context.to_json (fun _ _ => "\x7b\x7d") Context.new true
        = .ok "\x7b\x7d" ∧
      Context.from_json (fun _ => Except.ok []) "\x7b\x7d"
        = some (.ok Context.new)) ∧
    (Context.to_toml (fun _ _ => "") Context.new false = .ok "" ∧
      Context.from_toml (fun _ => Except.ok []) "" = some (.ok Context.new)) ∧
    (Context.to_yaml (fun _ => "") Context.new = .ok "" ∧
      Context.from_yaml (fun _ => Except.ok []) "" = some (.ok Context.new)) ∧
    (Context.to_xml (fun _ => "") Context.new = .ok "" ∧
      Context.from_xml (fun _ => Except.ok []) "" = some (.ok Context.new)) :=
  c6_empty_roundtrip (fun _ _ => "\x7b\x7d") (fun _ => Except.ok [])
    (fun _ _ => "") (fun _ => Except.ok []) (fun _ => "")
    (fun _ => Except.ok []) (fun _ => "") (fun _ => Except.ok [])
    true false rfl rfl rfl rfl

theorem value_cmp_string (a b : String) :
    Value.cmp (.String a) (.String b) = cmpString a b := rfl

theorem jsonReprPairs_mem :
    ∀ {m : List (Value × Value)}, jsonReprPairs m = true →
      ∀ kv ∈ m, (∃ s, kv.1 = Value.String s) ∧ jsonRepr kv.2 = true := by
  intro m
  induction m with
  | nil => intro _ kv hkv; cases hkv
  | cons hd t ih =>
    intro h kv hkv
    obtain ⟨k, v⟩ := hd
    have h' : (isStringKeyB k && jsonRepr v && jsonReprPairs t) = true := h
    rw [Bool.and_eq_true, Bool.and_eq_true] at h'
    obtain ⟨⟨hk, hv⟩, ht⟩ := h'
    cases hkv with
    | head =>
      refine ⟨?_, hv⟩
      cases k <;> first
        | exact ⟨_, rfl⟩
        | exact Bool.noConfusion hk
    | tail _ hmem => exact ih ht kv hmem

theorem pairwise_gt_of_lt_strKeys :
    ∀ (m : List (Value × Value)),
      (∀ kv ∈ m, ∃ s, kv.1 = Value.String s) →
      m.Pairwise (fun p q => Value.cmp p.1 q.1 = .lt) →
      m.Pairwise (fun p q => Value.cmp q.1 p.1 = .gt) := by
  intro m
  induction m with
  | nil => intro _ _; exact .nil
  | cons hd t ih =>
    intro hkeys hpw
    rw [List.pairwise_cons] at hpw ⊢
    obtain ⟨h1, h2⟩ := hpw
    refine ⟨?_, ih (fun kv hkv => hkeys kv (by simp [hkv])) h2⟩
    intro q hq
    obtain ⟨s1, hs1⟩ := hkeys hd (by simp)
    obtain ⟨s2, hs2⟩ := hkeys q (by simp [hq])
    have hlt := h1 q hq
    rw [hs1, hs2, value_cmp_string] at hlt
    rw [hs1, hs2, value_cmp_string]
    exact (cmpString_gt_iff_lt s2 s1).mpr hlt

mutual

theorem jsonRT : ∀ v : Value, jsonRepr v = true →
    ∃ j, serializeJson v = some j ∧ driveJson valueVisitor j = some v
  | .Unit, _ => ⟨.null, rfl, rfl⟩
  | .Bool b, _ => ⟨.bool b, rfl, rfl⟩
  | .U64 n, _ => ⟨.uint n, rfl, rfl⟩
  | .I64 i, h => by
    have hneg : i < 0 := of_decide_eq_true h
    refine ⟨.nint i, ?_, rfl⟩
    simp only [serializeJson, not_le.mpr hneg, if_false]
  | .String s, _ => ⟨.str s, rfl, rfl⟩
  | .Seq xs, h => by
    obtain ⟨js, h1, h2⟩ := jsonRTList xs h
    refine ⟨.arr js, ?_, ?_⟩
    · simp only [serializeJson, h1]
    · simp only [driveJson, h2]; rfl
  | .Map m, h => by
    have h' : (sortedA Value.cmp m && jsonReprPairs m) = true := h
    rw [Bool.and_eq_true] at h'
    obtain ⟨hs, hp⟩ := h'
    obtain ⟨ps, h1, h2⟩ := jsonRTPairs m hp
    refine ⟨.obj ps, ?_, ?_⟩
    · simp only [serializeJson, h1]
    · simp only [driveJson, h2]
      have hgt := pairwise_gt_of_lt_strKeys m
        (fun kv hkv => (jsonReprPairs_mem hp kv hkv).1)
        (sortedA_pairwise hs)
      show some (Value.Map (collectA Value.cmp m)) = some (Value.Map m)
      rw [collectA_of_pairwise Value.cmp m hgt]
  | .U8 _, h => Bool.noConfusion h
  | .U16 _, h => Bool.noConfusion h
  | .U32 _, h => Bool.noConfusion h
  | .I8 _, h => Bool.noConfusion h
  | .I16 _, h => Bool.noConfusion h
  | .I32 _, h => Bool.noConfusion h
  | .F32 _, h => Bool.noConfusion h
  | .F64 _, h => Bool.noConfusion h
  | .Char _, h => Bool.noConfusion h
  | .Option _, h => Bool.noConfusion h
  | .Newtype _, h => Bool.noConfusion h
  | .Bytes _, h => Bool.noConfusion h

theorem jsonRTList : ∀ xs : List Value, jsonReprList xs = true →
    ∃ js, serializeJsonList xs = some js ∧
      driveJsonList valueVisitor js = some xs
  | [], _ => ⟨[], rfl, rfl⟩
  | x :: t, h => by
    have h' : (jsonRepr x && jsonReprList t) = true := h
    rw [Bool.and_eq_true] at h'
    obtain ⟨hx, ht⟩ := h'
    obtain ⟨j, h1, h2⟩ := jsonRT x hx
    obtain ⟨js, h3, h4⟩ := jsonRTList t ht
    refine ⟨j :: js, ?_, ?_⟩
    · simp only [serializeJsonList, h1, h3]
    · simp only [driveJsonList, h2, h4]

theorem jsonRTPairs : ∀ m : List (Value × Value), jsonReprPairs m = true →
    ∃ ps, serializeJsonPairs m = some ps ∧
      driveJsonPairs valueVisitor ps = some m
  | [], _ => ⟨[], rfl, rfl⟩
  | (k, v) :: t, h => by
    have h' : (isStringKeyB k && jsonRepr v && jsonReprPairs t) = true := h
    rw [Bool.and_eq_true, Bool.and_eq_true] at h'
    obtain ⟨⟨hk, hv⟩, ht⟩ := h'
    obtain ⟨j, h1, h2⟩ := jsonRT v hv
    obtain ⟨ps, h3, h4⟩ := jsonRTPairs t ht
    cases k with
    | String s =>
      refine ⟨(s, j) :: ps, ?_, ?_⟩
      · simp only [serializeJsonPairs, h1, h3]
      · simp only [driveJsonPairs, h2, h4]
        rfl
    | Bool b => exact Bool.noConfusion hk
    | U8 n => exact Bool.noConfusion hk
    | U16 n => exact Bool.noConfusion hk
    | U32 n => exact Bool.noConfusion hk
    | U64 n => exact Bool.noConfusion hk
    | I8 n => exact Bool.noConfusion hk
    | I16 n => exact Bool.noConfusion hk
    | I32 n => exact Bool.noConfusion hk
    | I64 n => exact Bool.noConfusion hk
    | F32 q => exact Bool.noConfusion hk
    | F64 q => exact Bool.noConfusion hk
    | Char c => exact Bool.noConfusion hk
    | Unit => exact Bool.noConfusion hk
    | Option o => exact Bool.noConfusion hk
    | Newtype v' => exact Bool.noConfusion hk
    | Seq xs => exact Bool.noConfusion hk
    | Map m' => exact Bool.noConfusion hk
    | Bytes bs => exact Bool.noConfusion hk

end

theorem mapEntriesRT :
    ∀ l : List (String × Value), (∀ kv ∈ l, jsonRepr kv.2 = true) →
      ∃ t, mapEntries serializeJson l = some t ∧
        mapEntries (driveJson valueVisitor) t = some l
  | [], _ => ⟨[], rfl, rfl⟩
  | (k, v) :: t, h => by
    obtain ⟨j, h1, h2⟩ := jsonRT v (h (k, v) (by simp))
    obtain ⟨ts, h3, h4⟩ := mapEntriesRT t (fun kv hkv => h kv (by simp [hkv]))
    refine ⟨(k, j) :: ts, ?_, ?_⟩
    · simp only [mapEntries, h1, h3]
    · simp only [mapEntries, h2, h4]

theorem ofPairs_sorted (l : List (String × Value))
    (hs : sortedA cmpString l = true) : Context.ofPairs l = ⟨l⟩ := by
  unfold Context.ofPairs
  rw [collectA_of_pairwise cmpString l
    ((sortedA_pairwise hs).imp
      (fun hb => (cmpString_gt_iff_lt _ _).mpr hb))]

/-- C1: for every Context whose entries obey the ordering invariant and
whose values lie in the JSON-representable subset of Dynamic Value,
serializing to JSON and parsing the result back yields the same Context
(for either value of `pretty`), whenever the external engine parses its own
rendering of a tree back to that tree. -/
theorem c1_json_roundtrip
    (prn : Bool → List (String × JValue) → String)
    (parse : String → Except String (List (String × JValue)))
    (C : Context) (pretty : Bool)
    (hrep : contextJsonRepr C = true)
    (heng : ∀ t, jsonTreeOf C = some t → parse (prn pretty t) = .ok t) :
    ∃ s, Context.to_json prn C pretty = .ok s ∧
      Context.from_json parse s = some (.ok C) := by
  rw [contextJsonRepr, Bool.and_eq_true, List.all_eq_true] at hrep
  obtain ⟨hs, hall⟩ := hrep
  obtain ⟨t, h1, h2⟩ := mapEntriesRT C.inner hall
  have htree : jsonTreeOf C = some t := h1
  have hp := heng t htree
  refine ⟨prn pretty t, ?_, ?_⟩
  · simp only [Context.to_json, htree]
  · simp only [Context.from_json, hp, h2]
    rw [ofPairs_sorted C.inner hs]

/-- Witness for C1 at a concrete representable Context, for `pretty = true`,
with an engine whose parser inverts its printer on the produced tree. -/
theorem c1_json_roundtrip_witness :
    ∃ s, Context.to_json (fun _ _ => "rendered")
        (Context.mk [("a", Value.String "x")]) true = .ok s ∧
      Context.from_json (fun _ => Except.ok [("a", JValue.str "x")]) s
        = some (.ok (Context.mk [("a", Value.String "x")])) := by
  refine c1_json_roundtrip (fun _ _ => "rendered")
    (fun _ => Except.ok [("a", JValue.str "x")])
    (Context.mk [("a", Value.String "x")]) true rfl ?_
  intro t ht
  have h : some [("a", JValue.str "x")] = some t := ht
  cases h
  rfl
